import Mathlib

/-!
Shallow embedding of `src/image_decoder.rs` (drm-vc4-grabber).

Conventions of the embedding:
* `u8` / `u16` / `u32` values are `Nat`s; wherever the Rust code performs
  machine arithmetic whose wrap-around could matter, the embedding takes the
  result modulo `2^8`, `2^16` or `2^32` explicitly (casts `as u8` become
  `% 256`, u32 additions become `% 2^32`, ...).
* `i32` arithmetic (the YUV conversion) is `Int` arithmetic with an explicit
  two's-complement wrap `wrap32` after each operation; the arithmetic shift
  `>> 8` on `i32` is floor division by `256`.
* Source buffers (`&[u8]`, `&[u32]`) are total functions `Nat → Nat`; reads
  reduce the value to the sample width (`% 256`, `% 2^32`).
* An `RgbImage` is a width, a height and a pixel function returning an
  `(r, g, b)` triple; pixels never written keep the allocation value
  `(0,0,0)` (the image crate zero-initialises new buffers).
* The mutable tile-decode cursor `i` threaded through the nested closures of
  `to_image` / `decode_tiled_small_image` becomes an explicit state `DSt`:
  a cursor plus the list of performed writes in order, each write recording
  the destination coordinate and the cursor value at the time of the write.
-/

namespace ImageDecoder

/-- An RGB image: width, height, and pixel function (r, g, b per coordinate). -/
structure Img where
  w : Nat
  h : Nat
  px : Nat → Nat → Nat × Nat × Nat

/-! ### PixelAverage (src lines 3-31) -/

/-- The two running sums of `struct PixelAverage` (both `u32`). -/
structure PixelAverage where
  avg_rb : Nat
  avg_g : Nat

/-- `PixelAverage::new()`. -/
def PixelAverage.new : PixelAverage := ⟨0, 0⟩

/-- `PixelAverage::add(rgb)`: accumulate the masked red+blue and green parts. -/
def PixelAverage.add (s : PixelAverage) (rgb : Nat) : PixelAverage :=
  { avg_rb := (s.avg_rb + (rgb &&& 0x00FF00FF)) % 2 ^ 32,
    avg_g := (s.avg_g + (rgb &&& 0x0000FF00)) % 2 ^ 32 }

/-- `PixelAverage::rgb()`: divide by 16 and unpack (casts `as u8` are `% 256`). -/
def PixelAverage.rgb (s : PixelAverage) : Nat × Nat × Nat :=
  let rb := s.avg_rb / 16
  let g := (s.avg_g / 16) >>> 8
  let b := rb
  let r := rb >>> 16
  (r % 256, g % 256, b % 256)

/-! ### YUV420Pixel (src lines 53-90) -/

/-- Two's-complement wrap of an `i32` result. -/
def wrap32 (v : Int) : Int := (v + 2147483648) % 4294967296 - 2147483648

/-- Arithmetic shift right by 8 of an `i32` (floor division by 256). -/
def asr8 (v : Int) : Int := Int.fdiv v 256

/-- The clamp closure of `YUV420Pixel::rgb` (with the final `as u8` cast). -/
def clampByte (v : Int) : Nat :=
  if v > 255 then 255 else if v < 0 then 0 else v.toNat

/-- `YUV420Pixel::rgb()`: BT.601-style integer conversion, `i32` arithmetic. -/
def yuv_rgb (yv uv vv : Nat) : Nat × Nat × Nat :=
  let y : Int := (yv % 256 : Nat)
  let u : Int := (uv % 256 : Nat)
  let v : Int := (vv % 256 : Nat)
  let c := wrap32 (y - 16)
  let d := wrap32 (u - 128)
  let e := wrap32 (v - 128)
  let r := asr8 (wrap32 (wrap32 (wrap32 (298 * c) + wrap32 (409 * e)) + 128))
  let g := asr8 (wrap32 (wrap32 (wrap32 (wrap32 (298 * c) - wrap32 (100 * d))
      - wrap32 (208 * e)) + 128))
  let b := asr8 (wrap32 (wrap32 (wrap32 (298 * c) + wrap32 (516 * d)) + 128))
  (clampByte r, clampByte g, clampByte b)

/-- Modelled from the spec (§4.1): the idealised conversion the spec states,
with exact integers (no machine wrap-around): `C=Y-16, D=U-128, E=V-128`,
`R=(298C+409E+128)>>8`, `G=(298C-100D-208E+128)>>8`, `B=(298C+516D+128)>>8`,
each channel clamped into `[0,255]`. -/
def yuvSpec (yv uv vv : Nat) : Nat × Nat × Nat :=
  let c : Int := (yv : Int) - 16
  let d : Int := (uv : Int) - 128
  let e : Int := (vv : Int) - 128
  (clampByte (asr8 (298 * c + 409 * e + 128)),
   clampByte (asr8 (298 * c - 100 * d - 208 * e + 128)),
   clampByte (asr8 (298 * c + 516 * d + 128)))

/-! ### Rgb565 (src lines 92-111) -/

/-- The `byte` closure of `Rgb565::rgb`: extract `c` bits at offset `i` of the
`u16` word (the closure returns `u8`, hence the final `% 256`). -/
def rgb565_byte (dat i c : Nat) : Nat :=
  (((1 <<< c) - 1) &&& ((dat % 65536) >>> i)) % 256

/-- `Rgb565::rgb()`: expand the three fields to 8 bits (`u16` arithmetic,
results cast `as u8`). -/
def rgb565_rgb (dat : Nat) : Nat × Nat × Nat :=
  let r8 := (((rgb565_byte dat 11 5 * 527) % 65536 + 23) % 65536) >>> 6
  let g8 := (((rgb565_byte dat 5 6 * 259) % 65536 + 33) % 65536) >>> 6
  let b8 := (((rgb565_byte dat 0 5 * 527) % 65536 + 23) % 65536) >>> 6
  (r8 % 256, g8 % 256, b8 % 256)

/-! ### decode_image (src lines 129-147) -/

/-- The `byte` closure of `decode_image`: `(v >> i*8) as u8`. -/
def byte_of_word (v i : Nat) : Nat := (v >>> (i * 8)) % 256

/-- `decode_image`: packed 32-bit words, offset `y * (pitch/4) + x` in `u32`
arithmetic; bytes 2,1,0 of the word become R,G,B. -/
def decode_image (mapping : Nat → Nat) (pitch : Nat) (size : Nat × Nat) : Img :=
  let bytepitch := pitch / 4
  { w := size.1
    h := size.2
    px := fun x y =>
      if x < size.1 ∧ y < size.2 then
        let offset := (y * bytepitch % 2 ^ 32 + x) % 2 ^ 32
        let v := mapping offset % 2 ^ 32
        (byte_of_word v 2, byte_of_word v 1, byte_of_word v 0)
      else (0, 0, 0) }

/-! ### decode_small_image_multichannel (src lines 174-200) -/

/-- `decode_small_image_multichannel`: half-resolution planar YUV decode.
The luma of each output pixel is the mean of the 2×2 source block at
`(2x, 2y)`; chroma planes are read at `(x, y)` directly. All offset
arithmetic is `u32`. -/
def decode_small_image_multichannel (m0 m1 m2 : Nat → Nat) (size : Nat × Nat)
    (p0 p1 p2 : Nat) : Img :=
  let halfsize := (size.1 / 2, size.2 / 2)
  { w := halfsize.1
    h := halfsize.2
    px := fun x y =>
      if x < halfsize.1 ∧ y < halfsize.2 then
        let offset := ((2 * y) % 2 ^ 32 * p0 % 2 ^ 32 + (2 * x) % 2 ^ 32) % 2 ^ 32
        let offset1 := (y * p1 % 2 ^ 32 + x) % 2 ^ 32
        let offset2 := (y * p2 % 2 ^ 32 + x) % 2 ^ 32
        let yat := fun o => m0 o % 256
        let yval := (yat offset + yat (offset + 1) + yat (offset + p0)
            + yat (offset + p0 + 1)) / 4
        yuv_rgb yval (m1 offset1 % 256) (m2 offset2 % 256)
      else (0, 0, 0) }

/-! ### Tile de-swizzle state

Both tile decoders thread a mutable cursor `i` through nested closures that
write pixels in a fixed order.  The embedding makes the state explicit:
`DSt` carries the cursor and the list of writes performed so far, each write
being `(destination coordinate, cursor value at the write)`. -/

/-- Cursor plus ordered write log of a tile decode. -/
structure DSt where
  i : Nat
  ws : List ((Nat × Nat) × Nat)

/-! ### to_image (src lines 266-336): direct-copy 32×32-tile de-swizzle -/

namespace ToImage

/-- The `copy_px` closure: log one write at `(x, y)`, advance cursor by 4. -/
def copy_px (x y : Nat) (s : DSt) : DSt :=
  ⟨s.i + 4, s.ws ++ [((x, y), s.i)]⟩

/-- `copy_4_px`: four pixels rightwards. -/
def copy_4_px (x y : Nat) (s : DSt) : DSt :=
  s |> copy_px x y |> copy_px (x + 1) y |> copy_px (x + 2) y |> copy_px (x + 3) y

/-- `copy_4x4_px`: four rows of `copy_4_px`. -/
def copy_4x4_px (x y : Nat) (s : DSt) : DSt :=
  s |> copy_4_px x y |> copy_4_px x (y + 1) |> copy_4_px x (y + 2) |> copy_4_px x (y + 3)

/-- `copy_16x4_px`: four `copy_4x4_px` blocks rightwards. -/
def copy_16x4_px (x y : Nat) (s : DSt) : DSt :=
  s |> copy_4x4_px x y |> copy_4x4_px (x + 4) y |> copy_4x4_px (x + 8) y
    |> copy_4x4_px (x + 12) y

/-- `copy_16x16_px`: four `copy_16x4_px` strips downwards. -/
def copy_16x16_px (x y : Nat) (s : DSt) : DSt :=
  s |> copy_16x4_px x y |> copy_16x4_px x (y + 4) |> copy_16x4_px x (y + 8)
    |> copy_16x4_px x (y + 12)

/-- The `copy_tile` closure of the even branch of `to_image`'s row loop. -/
def copy_tile_even (x y : Nat) (s : DSt) : DSt :=
  s |> copy_16x16_px x y |> copy_16x16_px x (y + 16)
    |> copy_16x16_px (x + 16) (y + 16) |> copy_16x16_px (x + 16) y

/-- The `copy_tile` closure of the odd branch of `to_image`'s row loop. -/
def copy_tile_odd (x y : Nat) (s : DSt) : DSt :=
  s |> copy_16x16_px (x + 16) (y + 16) |> copy_16x16_px (x + 16) y
    |> copy_16x16_px x y |> copy_16x16_px x (y + 16)

/-- One iteration of `for ytile in 0..tiles.1`: even rows walk
`for xtile in 0..tiles.0`, odd rows walk `(0..tiles.0).rev()`. -/
def row (tilesize tx ytile : Nat) (s : DSt) : DSt :=
  if ytile % 2 = 0 then
    (List.range tx).foldl
      (fun s xtile => copy_tile_even (xtile * tilesize) (ytile * tilesize) s) s
  else
    (List.range tx).reverse.foldl
      (fun s xtile => copy_tile_odd (xtile * tilesize) (ytile * tilesize) s) s

/-- The whole traversal of `to_image`, starting from cursor 0, empty log. -/
def run (tilesize : Nat) (tiles : Nat × Nat) : DSt :=
  (List.range tiles.2).foldl (fun s ytile => row tilesize tiles.1 ytile s) ⟨0, []⟩

end ToImage

/-- Colour taken from the byte stream at cursor `c` by `copy_px`:
bytes `c+2, c+1, c+0` become R, G, B. -/
def colorAt (mapping : Nat → Nat) (c : Nat) : Nat × Nat × Nat :=
  (mapping (c + 2) % 256, mapping (c + 1) % 256, mapping c % 256)

/-- Cursor of the last write at destination `p` in the write log, if any
(the mutable image keeps the value of the last `unsafe_put_pixel`). -/
def lastCur (ws : List ((Nat × Nat) × Nat)) (p : Nat × Nat) : Option Nat :=
  (ws.reverse.find? (fun e => e.1 == p)).map (fun e => e.2)

/-- Pixel function of the full canvas built by `to_image` before cropping. -/
def toImageCanvasPx (mapping : Nat → Nat) (tilesize : Nat) (tiles : Nat × Nat)
    (p : Nat × Nat) : Nat × Nat × Nat :=
  match lastCur (ToImage.run tilesize tiles).ws p with
  | some c => colorAt mapping c
  | none => (0, 0, 0)

/-- The full canvas `RgbImage::new(tiles.0 * tilesize, tiles.1 * tilesize)`
after all tile writes of `to_image`. -/
def to_image_canvas (mapping : Nat → Nat) (tilesize : Nat) (tiles : Nat × Nat) : Img :=
  { w := tiles.1 * tilesize
    h := tiles.2 * tilesize
    px := fun x y => toImageCanvasPx mapping tilesize tiles (x, y) }

/-- `to_image`: build the full canvas, then return the top-left crop
`sub_image(0, 0, size.0, size.1).to_image()`. -/
def to_image (mapping : Nat → Nat) (tilesize : Nat) (tiles size : Nat × Nat) : Img :=
  { w := size.1
    h := size.2
    px := fun x y => toImageCanvasPx mapping tilesize tiles (x, y) }

/-! ### decode_tiled_small_image (src lines 202-264): averaged tile de-swizzle -/

namespace TiledSmall

/-- The `avg_16` closure, cursor/log part: log one write at `(x, y)` and
advance the cursor by the 16 consumed samples. -/
def avg_16 (x y : Nat) (s : DSt) : DSt :=
  ⟨s.i + 16, s.ws ++ [((x, y), s.i)]⟩

/-- `copy_16x4_px`: four averaged pixels rightwards. -/
def copy_16x4_px (x y : Nat) (s : DSt) : DSt :=
  s |> avg_16 x y |> avg_16 (x + 1) y |> avg_16 (x + 2) y |> avg_16 (x + 3) y

/-- `copy_16x16_px`: four rows of `copy_16x4_px` (a 4×4 destination block). -/
def copy_16x16_px (x y : Nat) (s : DSt) : DSt :=
  s |> copy_16x4_px x y |> copy_16x4_px x (y + 1) |> copy_16x4_px x (y + 2)
    |> copy_16x4_px x (y + 3)

/-- The `copy_tile` closure of the even branch of the row loop. -/
def copy_tile_even (x y : Nat) (s : DSt) : DSt :=
  s |> copy_16x16_px x y |> copy_16x16_px x (y + 4)
    |> copy_16x16_px (x + 4) (y + 4) |> copy_16x16_px (x + 4) y

/-- The `copy_tile` closure of the odd branch of the row loop. -/
def copy_tile_odd (x y : Nat) (s : DSt) : DSt :=
  s |> copy_16x16_px (x + 4) (y + 4) |> copy_16x16_px (x + 4) y
    |> copy_16x16_px x y |> copy_16x16_px x (y + 4)

/-- One iteration of `for ytile in 0..tiles.1` of `decode_tiled_small_image`. -/
def row (tilesize tx ytile : Nat) (s : DSt) : DSt :=
  if ytile % 2 = 0 then
    (List.range tx).foldl
      (fun s xtile => copy_tile_even (xtile * tilesize / 4) (ytile * tilesize / 4) s) s
  else
    (List.range tx).reverse.foldl
      (fun s xtile => copy_tile_odd (xtile * tilesize / 4) (ytile * tilesize / 4) s) s

/-- The whole traversal of `decode_tiled_small_image`. -/
def run (tilesize : Nat) (tiles : Nat × Nat) : DSt :=
  (List.range tiles.2).foldl (fun s ytile => row tilesize tiles.1 ytile s) ⟨0, []⟩

end TiledSmall

/-- The value part of `avg_16`: a fresh `PixelAverage`, 16 `add`s of the words
`mapping[i..i+16)`, then `rgb()`. -/
def avgRgb (mapping : Nat → Nat) (i : Nat) : Nat × Nat × Nat :=
  ((List.range 16).foldl (fun a n => PixelAverage.add a (mapping (i + n)))
    PixelAverage.new).rgb

/-- Pixel function of the full canvas built by `decode_tiled_small_image`. -/
def tiledSmallCanvasPx (mapping : Nat → Nat) (tilesize : Nat) (tiles : Nat × Nat)
    (p : Nat × Nat) : Nat × Nat × Nat :=
  match lastCur (TiledSmall.run tilesize tiles).ws p with
  | some c => avgRgb mapping c
  | none => (0, 0, 0)

/-- The full canvas `RgbImage::new(tiles.0 * tilesize / 4, tiles.1 * tilesize / 4)`
after all averaged tile writes. -/
def decode_tiled_canvas (mapping : Nat → Nat) (tilesize : Nat) (tiles : Nat × Nat) : Img :=
  { w := tiles.1 * tilesize / 4
    h := tiles.2 * tilesize / 4
    px := fun x y => tiledSmallCanvasPx mapping tilesize tiles (x, y) }

/-- `decode_tiled_small_image`: build the full averaged canvas, then return
the crop `sub_image(0, 0, size.0 / 4, size.1 / 4).to_image()`. -/
def decode_tiled_small_image (mapping : Nat → Nat) (tilesize : Nat)
    (tiles size : Nat × Nat) : Img :=
  { w := size.1 / 4
    h := size.2 / 4
    px := fun x y => tiledSmallCanvasPx mapping tilesize tiles (x, y) }

/-! ### Traversal analysis

`tagCurs step i L` tags the coordinates of `L` with the cursor values
`i, i + step, i + 2*step, ...`; `StepSpec step f L` says the state
transformer `f` appends exactly the writes `tagCurs step s.i L` and advances
the cursor by `step * L.length`. -/

/-- Tag coordinates with cursor values `i, i + step, ...`. -/
def tagCurs (step : Nat) : Nat → List (Nat × Nat) → List ((Nat × Nat) × Nat)
  | _, [] => []
  | i, p :: ps => (p, i) :: tagCurs step (i + step) ps

/-- `f` appends writes at the coordinates of `L`, in order, with consecutive
cursor values stepping by `step`. -/
def StepSpec (step : Nat) (f : DSt → DSt) (L : List (Nat × Nat)) : Prop :=
  ∀ s : DSt, f s = ⟨s.i + step * L.length, s.ws ++ tagCurs step s.i L⟩

theorem tagCurs_append (step : Nat) (L M : List (Nat × Nat)) :
    ∀ i, tagCurs step i (L ++ M)
      = tagCurs step i L ++ tagCurs step (i + step * L.length) M := by
  induction L with
  | nil => intro i; simp [tagCurs]
  | cons p ps ih =>
    intro i
    show (p, i) :: tagCurs step (i + step) (ps ++ M)
        = ((p, i) :: tagCurs step (i + step) ps)
          ++ tagCurs step (i + step * (p :: ps).length) M
    rw [List.cons_append, ih (i + step)]
    have h2 : i + step + step * ps.length = i + step * (p :: ps).length := by
      simp only [List.length_cons]; ring
    rw [h2]

theorem tagCurs_length (step : Nat) (L : List (Nat × Nat)) :
    ∀ i, (tagCurs step i L).length = L.length := by
  induction L with
  | nil => intro i; rfl
  | cons p ps ih => intro i; simp [tagCurs, ih]

theorem tagCurs_map_fst (step : Nat) (L : List (Nat × Nat)) :
    ∀ i, (tagCurs step i L).map Prod.fst = L := by
  induction L with
  | nil => intro i; rfl
  | cons p ps ih => intro i; simp [tagCurs, ih]

theorem tagCurs_map_snd (step : Nat) (L : List (Nat × Nat)) :
    ∀ i, (tagCurs step i L).map Prod.snd
      = (List.range L.length).map (fun k => i + step * k) := by
  induction L with
  | nil => intro i; rfl
  | cons p ps ih =>
    intro i
    show i :: (tagCurs step (i + step) ps).map Prod.snd
        = (List.range (ps.length + 1)).map (fun k => i + step * k)
    rw [ih (i + step), List.range_succ_eq_map]
    simp only [List.map_cons, List.map_map, Nat.mul_zero, Nat.add_zero]
    congr 1
    apply List.map_congr_left
    intro k _
    simp only [Function.comp_apply, Nat.succ_eq_add_one]
    ring

theorem stepSpec_comp {step : Nat} {f g : DSt → DSt} {L M : List (Nat × Nat)}
    (hf : StepSpec step f L) (hg : StepSpec step g M) :
    StepSpec step (fun s => g (f s)) (L ++ M) := by
  intro s
  show g (f s) = DSt.mk (s.i + step * (L ++ M).length) (s.ws ++ tagCurs step s.i (L ++ M))
  rw [hf s, hg]
  simp only [tagCurs_append, List.length_append, List.append_assoc, DSt.mk.injEq]
  exact ⟨by ring, trivial⟩

theorem stepSpec_foldl {step : Nat} (F : Nat → DSt → DSt) (G : Nat → List (Nat × Nat))
    (h : ∀ a, StepSpec step (F a) (G a)) (l : List Nat) :
    StepSpec step (fun s => l.foldl (fun s a => F a s) s) (l.flatMap G) := by
  induction l with
  | nil =>
    intro s
    show s = DSt.mk (s.i + step * (List.flatMap [] G).length)
        (s.ws ++ tagCurs step s.i (List.flatMap [] G))
    simp [tagCurs]
  | cons a l ih =>
    intro s
    show List.foldl (fun s a => F a s) (F a s) l
        = DSt.mk (s.i + step * (List.flatMap (a :: l) G).length)
            (s.ws ++ tagCurs step s.i (List.flatMap (a :: l) G))
    have hi : List.foldl (fun s a => F a s) (F a s) l
        = DSt.mk ((F a s).i + step * (l.flatMap G).length)
            ((F a s).ws ++ tagCurs step (F a s).i (l.flatMap G)) := ih (F a s)
    rw [hi, h a s, List.flatMap_cons]
    simp only [tagCurs_append, List.length_append, List.append_assoc, DSt.mk.injEq]
    exact ⟨by ring, trivial⟩

/-! Pure coordinate lists of the `to_image` traversal units (shapes mirror
the closure bodies; proven to match via `StepSpec` lemmas below). -/

/-- Coordinates of `copy_4_px x y` (and of the small variant's `copy_16x4_px`). -/
def L4 (x y : Nat) : List (Nat × Nat) :=
  [(x, y)] ++ [(x + 1, y)] ++ [(x + 2, y)] ++ [(x + 3, y)]

/-- Coordinates of `copy_4x4_px x y` (and of the small variant's `copy_16x16_px`). -/
def L4x4 (x y : Nat) : List (Nat × Nat) :=
  L4 x y ++ L4 x (y + 1) ++ L4 x (y + 2) ++ L4 x (y + 3)

/-- Coordinates of `ToImage.copy_16x4_px x y`. -/
def L16x4 (x y : Nat) : List (Nat × Nat) :=
  L4x4 x y ++ L4x4 (x + 4) y ++ L4x4 (x + 8) y ++ L4x4 (x + 12) y

/-- Coordinates of `ToImage.copy_16x16_px x y`. -/
def L16x16 (x y : Nat) : List (Nat × Nat) :=
  L16x4 x y ++ L16x4 x (y + 4) ++ L16x4 x (y + 8) ++ L16x4 x (y + 12)

/-- Coordinates of `ToImage.copy_tile_even x y`. -/
def LTileE (x y : Nat) : List (Nat × Nat) :=
  L16x16 x y ++ L16x16 x (y + 16) ++ L16x16 (x + 16) (y + 16) ++ L16x16 (x + 16) y

/-- Coordinates of `ToImage.copy_tile_odd x y`. -/
def LTileO (x y : Nat) : List (Nat × Nat) :=
  L16x16 (x + 16) (y + 16) ++ L16x16 (x + 16) y ++ L16x16 x y ++ L16x16 x (y + 16)

/-- Coordinates of one `to_image` tile row. -/
def LRow (tilesize tx ytile : Nat) : List (Nat × Nat) :=
  if ytile % 2 = 0 then
    (List.range tx).flatMap (fun xtile => LTileE (xtile * tilesize) (ytile * tilesize))
  else
    (List.range tx).reverse.flatMap
      (fun xtile => LTileO (xtile * tilesize) (ytile * tilesize))

/-- Coordinates of the whole `to_image` traversal. -/
def LAll (tilesize : Nat) (tiles : Nat × Nat) : List (Nat × Nat) :=
  (List.range tiles.2).flatMap (fun ytile => LRow tilesize tiles.1 ytile)

/-- Coordinates of `TiledSmall.copy_tile_even x y`. -/
def SLTileE (x y : Nat) : List (Nat × Nat) :=
  L4x4 x y ++ L4x4 x (y + 4) ++ L4x4 (x + 4) (y + 4) ++ L4x4 (x + 4) y

/-- Coordinates of `TiledSmall.copy_tile_odd x y`. -/
def SLTileO (x y : Nat) : List (Nat × Nat) :=
  L4x4 (x + 4) (y + 4) ++ L4x4 (x + 4) y ++ L4x4 x y ++ L4x4 x (y + 4)

/-- Coordinates of one `decode_tiled_small_image` tile row. -/
def SLRow (tilesize tx ytile : Nat) : List (Nat × Nat) :=
  if ytile % 2 = 0 then
    (List.range tx).flatMap
      (fun xtile => SLTileE (xtile * tilesize / 4) (ytile * tilesize / 4))
  else
    (List.range tx).reverse.flatMap
      (fun xtile => SLTileO (xtile * tilesize / 4) (ytile * tilesize / 4))

/-- Coordinates of the whole `decode_tiled_small_image` traversal. -/
def SLAll (tilesize : Nat) (tiles : Nat × Nat) : List (Nat × Nat) :=
  (List.range tiles.2).flatMap (fun ytile => SLRow tilesize tiles.1 ytile)

/-! `StepSpec` lemmas: each `to_image` closure appends exactly its pure
coordinate list, with cursor step 4. -/

theorem spec_copy_px (x y : Nat) : StepSpec 4 (ToImage.copy_px x y) [(x, y)] := by
  intro s
  simp [ToImage.copy_px, tagCurs]

theorem spec_copy_4_px (x y : Nat) : StepSpec 4 (ToImage.copy_4_px x y) (L4 x y) := by
  have h :=
  stepSpec_comp (stepSpec_comp (stepSpec_comp (spec_copy_px x y)
    (spec_copy_px (x + 1) y)) (spec_copy_px (x + 2) y)) (spec_copy_px (x + 3) y)
  exact h

theorem spec_copy_4x4_px (x y : Nat) : StepSpec 4 (ToImage.copy_4x4_px x y) (L4x4 x y) := by
  have h :=
  stepSpec_comp (stepSpec_comp (stepSpec_comp (spec_copy_4_px x y)
    (spec_copy_4_px x (y + 1))) (spec_copy_4_px x (y + 2))) (spec_copy_4_px x (y + 3))
  exact h

theorem spec_copy_16x4_px (x y : Nat) :
    StepSpec 4 (ToImage.copy_16x4_px x y) (L16x4 x y) := by
  have h :=
  stepSpec_comp (stepSpec_comp (stepSpec_comp (spec_copy_4x4_px x y)
    (spec_copy_4x4_px (x + 4) y)) (spec_copy_4x4_px (x + 8) y))
    (spec_copy_4x4_px (x + 12) y)
  exact h

theorem spec_copy_16x16_px (x y : Nat) :
    StepSpec 4 (ToImage.copy_16x16_px x y) (L16x16 x y) := by
  have h :=
  stepSpec_comp (stepSpec_comp (stepSpec_comp (spec_copy_16x4_px x y)
    (spec_copy_16x4_px x (y + 4))) (spec_copy_16x4_px x (y + 8)))
    (spec_copy_16x4_px x (y + 12))
  exact h

theorem spec_copy_tile_even (x y : Nat) :
    StepSpec 4 (ToImage.copy_tile_even x y) (LTileE x y) := by
  have h :=
  stepSpec_comp (stepSpec_comp (stepSpec_comp (spec_copy_16x16_px x y)
    (spec_copy_16x16_px x (y + 16))) (spec_copy_16x16_px (x + 16) (y + 16)))
    (spec_copy_16x16_px (x + 16) y)
  exact h

theorem spec_copy_tile_odd (x y : Nat) :
    StepSpec 4 (ToImage.copy_tile_odd x y) (LTileO x y) := by
  have h :=
  stepSpec_comp (stepSpec_comp (stepSpec_comp (spec_copy_16x16_px (x + 16) (y + 16))
    (spec_copy_16x16_px (x + 16) y)) (spec_copy_16x16_px x y))
    (spec_copy_16x16_px x (y + 16))
  exact h

theorem spec_row (tilesize tx ytile : Nat) :
    StepSpec 4 (ToImage.row tilesize tx ytile) (LRow tilesize tx ytile) := by
  intro s
  by_cases h : ytile % 2 = 0
  · simp only [ToImage.row, LRow, if_pos h]
    exact stepSpec_foldl _ _
      (fun xt => spec_copy_tile_even (xt * tilesize) (ytile * tilesize)) _ s
  · simp only [ToImage.row, LRow, if_neg h]
    exact stepSpec_foldl _ _
      (fun xt => spec_copy_tile_odd (xt * tilesize) (ytile * tilesize)) _ s

/-- Master equation for the `to_image` traversal: the write log is exactly
the pure coordinate list `LAll`, tagged with cursors `0, 4, 8, ...`. -/
theorem run_eq (tilesize : Nat) (tiles : Nat × Nat) :
    ToImage.run tilesize tiles
      = ⟨4 * (LAll tilesize tiles).length, tagCurs 4 0 (LAll tilesize tiles)⟩ := by
  have h := stepSpec_foldl (fun yt => ToImage.row tilesize tiles.1 yt)
    (fun yt => LRow tilesize tiles.1 yt)
    (fun yt => spec_row tilesize tiles.1 yt) (List.range tiles.2) ⟨0, []⟩
  simpa [LAll] using h

/-! `StepSpec` lemmas for `decode_tiled_small_image`, cursor step 16. -/

theorem spec_avg_16 (x y : Nat) : StepSpec 16 (TiledSmall.avg_16 x y) [(x, y)] := by
  intro s
  simp [TiledSmall.avg_16, tagCurs]

theorem spec_sm_16x4 (x y : Nat) : StepSpec 16 (TiledSmall.copy_16x4_px x y) (L4 x y) := by
  have h :=
  stepSpec_comp (stepSpec_comp (stepSpec_comp (spec_avg_16 x y)
    (spec_avg_16 (x + 1) y)) (spec_avg_16 (x + 2) y)) (spec_avg_16 (x + 3) y)
  exact h

theorem spec_sm_16x16 (x y : Nat) :
    StepSpec 16 (TiledSmall.copy_16x16_px x y) (L4x4 x y) := by
  have h :=
  stepSpec_comp (stepSpec_comp (stepSpec_comp (spec_sm_16x4 x y)
    (spec_sm_16x4 x (y + 1))) (spec_sm_16x4 x (y + 2))) (spec_sm_16x4 x (y + 3))
  exact h

theorem spec_sm_tile_even (x y : Nat) :
    StepSpec 16 (TiledSmall.copy_tile_even x y) (SLTileE x y) := by
  have h :=
  stepSpec_comp (stepSpec_comp (stepSpec_comp (spec_sm_16x16 x y)
    (spec_sm_16x16 x (y + 4))) (spec_sm_16x16 (x + 4) (y + 4)))
    (spec_sm_16x16 (x + 4) y)
  exact h

theorem spec_sm_tile_odd (x y : Nat) :
    StepSpec 16 (TiledSmall.copy_tile_odd x y) (SLTileO x y) := by
  have h :=
  stepSpec_comp (stepSpec_comp (stepSpec_comp (spec_sm_16x16 (x + 4) (y + 4))
    (spec_sm_16x16 (x + 4) y)) (spec_sm_16x16 x y))
    (spec_sm_16x16 x (y + 4))
  exact h

theorem spec_sm_row (tilesize tx ytile : Nat) :
    StepSpec 16 (TiledSmall.row tilesize tx ytile) (SLRow tilesize tx ytile) := by
  intro s
  by_cases h : ytile % 2 = 0
  · simp only [TiledSmall.row, SLRow, if_pos h]
    exact stepSpec_foldl _ _
      (fun xt => spec_sm_tile_even (xt * tilesize / 4) (ytile * tilesize / 4)) _ s
  · simp only [TiledSmall.row, SLRow, if_neg h]
    exact stepSpec_foldl _ _
      (fun xt => spec_sm_tile_odd (xt * tilesize / 4) (ytile * tilesize / 4)) _ s

/-- Master equation for the `decode_tiled_small_image` traversal. -/
theorem sm_run_eq (tilesize : Nat) (tiles : Nat × Nat) :
    TiledSmall.run tilesize tiles
      = ⟨16 * (SLAll tilesize tiles).length, tagCurs 16 0 (SLAll tilesize tiles)⟩ := by
  have h := stepSpec_foldl (fun yt => TiledSmall.row tilesize tiles.1 yt)
    (fun yt => SLRow tilesize tiles.1 yt)
    (fun yt => spec_sm_row tilesize tiles.1 yt) (List.range tiles.2) ⟨0, []⟩
  simpa [SLAll] using h

/-! Lengths of the pure coordinate lists. -/

theorem len_L4 (x y : Nat) : (L4 x y).length = 4 := rfl

theorem len_L4x4 (x y : Nat) : (L4x4 x y).length = 16 := by
  simp [L4x4, len_L4]

theorem len_L16x4 (x y : Nat) : (L16x4 x y).length = 64 := by
  simp [L16x4, len_L4x4]

theorem len_L16x16 (x y : Nat) : (L16x16 x y).length = 256 := by
  simp [L16x16, len_L16x4]

theorem len_LTileE (x y : Nat) : (LTileE x y).length = 1024 := by
  simp [LTileE, len_L16x16]

theorem len_LTileO (x y : Nat) : (LTileO x y).length = 1024 := by
  simp [LTileO, len_L16x16]

theorem len_SLTileE (x y : Nat) : (SLTileE x y).length = 64 := by
  simp [SLTileE, len_L4x4]

theorem len_SLTileO (x y : Nat) : (SLTileO x y).length = 64 := by
  simp [SLTileO, len_L4x4]

theorem sum_map_len {c : Nat} (l : List Nat) (f : Nat → List (Nat × Nat))
    (h : ∀ a, (f a).length = c) : (l.map (List.length ∘ f)).sum = l.length * c := by
  induction l with
  | nil => simp
  | cons a t ih =>
    simp only [List.map_cons, List.sum_cons, Function.comp_apply, h, ih,
      List.length_cons]
    ring

theorem len_LRow (tilesize tx ytile : Nat) : (LRow tilesize tx ytile).length = tx * 1024 := by
  by_cases h : ytile % 2 = 0
  · simp only [LRow, if_pos h, List.length_flatMap]
    rw [sum_map_len _ _ (fun a => len_LTileE _ _), List.length_range]
  · simp only [LRow, if_neg h, List.length_flatMap]
    rw [sum_map_len _ _ (fun a => len_LTileO _ _), List.length_reverse,
      List.length_range]

theorem len_LAll (tilesize : Nat) (tiles : Nat × Nat) :
    (LAll tilesize tiles).length = tiles.2 * (tiles.1 * 1024) := by
  simp only [LAll, List.length_flatMap]
  rw [sum_map_len _ _ (fun a => len_LRow tilesize tiles.1 a), List.length_range]

theorem len_SLRow (tilesize tx ytile : Nat) :
    (SLRow tilesize tx ytile).length = tx * 64 := by
  by_cases h : ytile % 2 = 0
  · simp only [SLRow, if_pos h, List.length_flatMap]
    rw [sum_map_len _ _ (fun a => len_SLTileE _ _), List.length_range]
  · simp only [SLRow, if_neg h, List.length_flatMap]
    rw [sum_map_len _ _ (fun a => len_SLTileO _ _), List.length_reverse,
      List.length_range]

theorem len_SLAll (tilesize : Nat) (tiles : Nat × Nat) :
    (SLAll tilesize tiles).length = tiles.2 * (tiles.1 * 64) := by
  simp only [SLAll, List.length_flatMap]
  rw [sum_map_len _ _ (fun a => len_SLRow tilesize tiles.1 a), List.length_range]

/-! Membership bounds: every coordinate of a unit's list lies in the unit's
rectangle. -/

theorem mem_L4 {p : Nat × Nat} {x y : Nat} (h : p ∈ L4 x y) :
    x ≤ p.1 ∧ p.1 < x + 4 ∧ p.2 = y := by
  simp only [L4, List.mem_append, List.mem_singleton] at h
  rcases h with ((h | h) | h) | h <;> subst h <;> simp

theorem mem_L4x4 {p : Nat × Nat} {x y : Nat} (h : p ∈ L4x4 x y) :
    x ≤ p.1 ∧ p.1 < x + 4 ∧ y ≤ p.2 ∧ p.2 < y + 4 := by
  simp only [L4x4, List.mem_append] at h
  rcases h with ((h | h) | h) | h <;> have := mem_L4 h <;> omega

theorem mem_L16x4 {p : Nat × Nat} {x y : Nat} (h : p ∈ L16x4 x y) :
    x ≤ p.1 ∧ p.1 < x + 16 ∧ y ≤ p.2 ∧ p.2 < y + 4 := by
  simp only [L16x4, List.mem_append] at h
  rcases h with ((h | h) | h) | h <;> have := mem_L4x4 h <;> omega

theorem mem_L16x16 {p : Nat × Nat} {x y : Nat} (h : p ∈ L16x16 x y) :
    x ≤ p.1 ∧ p.1 < x + 16 ∧ y ≤ p.2 ∧ p.2 < y + 16 := by
  simp only [L16x16, List.mem_append] at h
  rcases h with ((h | h) | h) | h <;> have := mem_L16x4 h <;> omega

theorem mem_LTileE {p : Nat × Nat} {x y : Nat} (h : p ∈ LTileE x y) :
    x ≤ p.1 ∧ p.1 < x + 32 ∧ y ≤ p.2 ∧ p.2 < y + 32 := by
  simp only [LTileE, List.mem_append] at h
  rcases h with ((h | h) | h) | h <;> have := mem_L16x16 h <;> omega

theorem mem_LTileO {p : Nat × Nat} {x y : Nat} (h : p ∈ LTileO x y) :
    x ≤ p.1 ∧ p.1 < x + 32 ∧ y ≤ p.2 ∧ p.2 < y + 32 := by
  simp only [LTileO, List.mem_append] at h
  rcases h with ((h | h) | h) | h <;> have := mem_L16x16 h <;> omega

theorem mem_SLTileE {p : Nat × Nat} {x y : Nat} (h : p ∈ SLTileE x y) :
    x ≤ p.1 ∧ p.1 < x + 8 ∧ y ≤ p.2 ∧ p.2 < y + 8 := by
  simp only [SLTileE, List.mem_append] at h
  rcases h with ((h | h) | h) | h <;> have := mem_L4x4 h <;> omega

theorem mem_SLTileO {p : Nat × Nat} {x y : Nat} (h : p ∈ SLTileO x y) :
    x ≤ p.1 ∧ p.1 < x + 8 ∧ y ≤ p.2 ∧ p.2 < y + 8 := by
  simp only [SLTileO, List.mem_append] at h
  rcases h with ((h | h) | h) | h <;> have := mem_L4x4 h <;> omega

/-! Generic helpers for the traversal-order theorems. -/

theorem map_eq_replicate {α β : Type} (f : α → β) (L : List α) (n : Nat) (r : β)
    (hlen : L.length = n) (h : ∀ p ∈ L, f p = r) : L.map f = List.replicate n r := by
  rw [List.eq_replicate_iff]
  constructor
  · simp [hlen]
  · intro b hb
    obtain ⟨p, hp, rfl⟩ := List.mem_map.mp hb
    exact h p hp

theorem drop_map_fst {step : Nat} {f : DSt → DSt} {L : List (Nat × Nat)}
    (hf : StepSpec step f L) (s : DSt) :
    ((f s).ws.drop s.ws.length).map Prod.fst = L := by
  rw [hf s]
  show ((s.ws ++ tagCurs step s.i L).drop s.ws.length).map Prod.fst = L
  rw [List.drop_left, tagCurs_map_fst]

/-- Rank of the quadrant (relative to tile origin `(x, y)`, quadrant side
`half`) containing a coordinate, in the even-row visit order
top-left, bottom-left, bottom-right, top-right. -/
def quadRankEven (x y half : Nat) (p : Nat × Nat) : Nat :=
  if p.1 < x + half then (if p.2 < y + half then 0 else 1)
  else (if p.2 < y + half then 3 else 2)

/-- Rank of the quadrant containing a coordinate in the odd-row visit order
bottom-right, top-right, top-left, bottom-left. -/
def quadRankOdd (x y half : Nat) (p : Nat × Nat) : Nat :=
  if p.1 < x + half then (if p.2 < y + half then 2 else 3)
  else (if p.2 < y + half then 1 else 0)

/-- C1: in the direct-copy de-swizzle `to_image` with `tile_size = 32`, for
every tile grid the running source cursor advances by exactly 4 bytes per
visited pixel starting at 0 (hence is strictly increasing), and the sequence
of source pixel indices (cursor / 4) visited across all tiles, quadrants and
blocks is exactly `0, 1, ..., tiles_x * tiles_y * 32 * 32 - 1` — a
permutation (in fact the identity enumeration) of the full source range,
each index visited exactly once. -/
theorem c1_to_image_cursor_permutation (tx ty : Nat) :
    (ToImage.run 32 (tx, ty)).ws.map Prod.snd
        = (List.range (tx * ty * 32 * 32)).map (fun k => 4 * k)
    ∧ List.Pairwise (fun a b => a < b) ((ToImage.run 32 (tx, ty)).ws.map Prod.snd)
    ∧ (ToImage.run 32 (tx, ty)).ws.map (fun e => e.2 / 4)
        = List.range (tx * ty * 32 * 32) := by
  have hws : (ToImage.run 32 (tx, ty)).ws = tagCurs 4 0 (LAll 32 (tx, ty)) := by
    rw [run_eq]
  have hlen : (LAll 32 (tx, ty)).length = tx * ty * 32 * 32 := by
    rw [len_LAll]; ring
  have h1 : (ToImage.run 32 (tx, ty)).ws.map Prod.snd
      = (List.range (tx * ty * 32 * 32)).map (fun k => 4 * k) := by
    rw [hws, tagCurs_map_snd, hlen]
    apply List.map_congr_left
    intro k _
    omega
  refine ⟨h1, ?_, ?_⟩
  · rw [h1]
    exact (List.pairwise_lt_range _).map _ (fun a b hab => by omega)
  · have hcomp : (fun e : (Nat × Nat) × Nat => e.2 / 4)
        = (fun v => v / 4) ∘ Prod.snd := rfl
    rw [hcomp, ← List.map_map, h1, List.map_map]
    conv_rhs => rw [← List.map_id (List.range (tx * ty * 32 * 32))]
    apply List.map_congr_left
    intro k _
    simp only [Function.comp_apply, id]
    omega

theorem tileE_ranks (x y : Nat) : (LTileE x y).map (quadRankEven x y 16)
    = List.replicate 256 0 ++ List.replicate 256 1
      ++ List.replicate 256 2 ++ List.replicate 256 3 := by
  have h0 : (L16x16 x y).map (quadRankEven x y 16) = List.replicate 256 0 := by
    apply map_eq_replicate _ _ _ _ (len_L16x16 x y)
    intro p hp
    have hb := mem_L16x16 hp
    simp only [quadRankEven]
    rw [if_pos (by omega), if_pos (by omega)]
  have h1 : (L16x16 x (y + 16)).map (quadRankEven x y 16) = List.replicate 256 1 := by
    apply map_eq_replicate _ _ _ _ (len_L16x16 x (y + 16))
    intro p hp
    have hb := mem_L16x16 hp
    simp only [quadRankEven]
    rw [if_pos (by omega), if_neg (by omega)]
  have h2 : (L16x16 (x + 16) (y + 16)).map (quadRankEven x y 16)
      = List.replicate 256 2 := by
    apply map_eq_replicate _ _ _ _ (len_L16x16 (x + 16) (y + 16))
    intro p hp
    have hb := mem_L16x16 hp
    simp only [quadRankEven]
    rw [if_neg (by omega), if_neg (by omega)]
  have h3 : (L16x16 (x + 16) y).map (quadRankEven x y 16) = List.replicate 256 3 := by
    apply map_eq_replicate _ _ _ _ (len_L16x16 (x + 16) y)
    intro p hp
    have hb := mem_L16x16 hp
    simp only [quadRankEven]
    rw [if_neg (by omega), if_pos (by omega)]
  simp only [LTileE, List.map_append, h0, h1, h2, h3]

theorem tileO_ranks (x y : Nat) : (LTileO x y).map (quadRankOdd x y 16)
    = List.replicate 256 0 ++ List.replicate 256 1
      ++ List.replicate 256 2 ++ List.replicate 256 3 := by
  have h0 : (L16x16 (x + 16) (y + 16)).map (quadRankOdd x y 16)
      = List.replicate 256 0 := by
    apply map_eq_replicate _ _ _ _ (len_L16x16 (x + 16) (y + 16))
    intro p hp
    have hb := mem_L16x16 hp
    simp only [quadRankOdd]
    rw [if_neg (by omega), if_neg (by omega)]
  have h1 : (L16x16 (x + 16) y).map (quadRankOdd x y 16) = List.replicate 256 1 := by
    apply map_eq_replicate _ _ _ _ (len_L16x16 (x + 16) y)
    intro p hp
    have hb := mem_L16x16 hp
    simp only [quadRankOdd]
    rw [if_neg (by omega), if_pos (by omega)]
  have h2 : (L16x16 x y).map (quadRankOdd x y 16) = List.replicate 256 2 := by
    apply map_eq_replicate _ _ _ _ (len_L16x16 x y)
    intro p hp
    have hb := mem_L16x16 hp
    simp only [quadRankOdd]
    rw [if_pos (by omega), if_pos (by omega)]
  have h3 : (L16x16 x (y + 16)).map (quadRankOdd x y 16) = List.replicate 256 3 := by
    apply map_eq_replicate _ _ _ _ (len_L16x16 x (y + 16))
    intro p hp
    have hb := mem_L16x16 hp
    simp only [quadRankOdd]
    rw [if_pos (by omega), if_neg (by omega)]
  simp only [LTileO, List.map_append, h0, h1, h2, h3]

theorem smTileE_ranks (x y : Nat) : (SLTileE x y).map (quadRankEven x y 4)
    = List.replicate 16 0 ++ List.replicate 16 1
      ++ List.replicate 16 2 ++ List.replicate 16 3 := by
  have h0 : (L4x4 x y).map (quadRankEven x y 4) = List.replicate 16 0 := by
    apply map_eq_replicate _ _ _ _ (len_L4x4 x y)
    intro p hp
    have hb := mem_L4x4 hp
    simp only [quadRankEven]
    rw [if_pos (by omega), if_pos (by omega)]
  have h1 : (L4x4 x (y + 4)).map (quadRankEven x y 4) = List.replicate 16 1 := by
    apply map_eq_replicate _ _ _ _ (len_L4x4 x (y + 4))
    intro p hp
    have hb := mem_L4x4 hp
    simp only [quadRankEven]
    rw [if_pos (by omega), if_neg (by omega)]
  have h2 : (L4x4 (x + 4) (y + 4)).map (quadRankEven x y 4) = List.replicate 16 2 := by
    apply map_eq_replicate _ _ _ _ (len_L4x4 (x + 4) (y + 4))
    intro p hp
    have hb := mem_L4x4 hp
    simp only [quadRankEven]
    rw [if_neg (by omega), if_neg (by omega)]
  have h3 : (L4x4 (x + 4) y).map (quadRankEven x y 4) = List.replicate 16 3 := by
    apply map_eq_replicate _ _ _ _ (len_L4x4 (x + 4) y)
    intro p hp
    have hb := mem_L4x4 hp
    simp only [quadRankEven]
    rw [if_neg (by omega), if_pos (by omega)]
  simp only [SLTileE, List.map_append, h0, h1, h2, h3]

theorem smTileO_ranks (x y : Nat) : (SLTileO x y).map (quadRankOdd x y 4)
    = List.replicate 16 0 ++ List.replicate 16 1
      ++ List.replicate 16 2 ++ List.replicate 16 3 := by
  have h0 : (L4x4 (x + 4) (y + 4)).map (quadRankOdd x y 4) = List.replicate 16 0 := by
    apply map_eq_replicate _ _ _ _ (len_L4x4 (x + 4) (y + 4))
    intro p hp
    have hb := mem_L4x4 hp
    simp only [quadRankOdd]
    rw [if_neg (by omega), if_neg (by omega)]
  have h1 : (L4x4 (x + 4) y).map (quadRankOdd x y 4) = List.replicate 16 1 := by
    apply map_eq_replicate _ _ _ _ (len_L4x4 (x + 4) y)
    intro p hp
    have hb := mem_L4x4 hp
    simp only [quadRankOdd]
    rw [if_neg (by omega), if_pos (by omega)]
  have h2 : (L4x4 x y).map (quadRankOdd x y 4) = List.replicate 16 2 := by
    apply map_eq_replicate _ _ _ _ (len_L4x4 x y)
    intro p hp
    have hb := mem_L4x4 hp
    simp only [quadRankOdd]
    rw [if_pos (by omega), if_pos (by omega)]
  have h3 : (L4x4 x (y + 4)).map (quadRankOdd x y 4) = List.replicate 16 3 := by
    apply map_eq_replicate _ _ _ _ (len_L4x4 x (y + 4))
    intro p hp
    have hb := mem_L4x4 hp
    simp only [quadRankOdd]
    rw [if_pos (by omega), if_neg (by omega)]
  simp only [SLTileO, List.map_append, h0, h1, h2, h3]

theorem rowE_div (tx m : Nat) : (LRow 32 tx (2 * m)).map (fun p => p.1 / 32)
    = (List.range tx).flatMap (fun k => List.replicate 1024 k) := by
  have he : 2 * m % 2 = 0 := by omega
  simp only [LRow]
  rw [if_pos he, List.map_flatMap]
  have hfun : (fun a => (LTileE (a * 32) (2 * m * 32)).map (fun p => p.1 / 32))
      = fun k => List.replicate 1024 k := by
    funext a
    apply map_eq_replicate _ _ _ _ (len_LTileE _ _)
    intro p hp
    have hb := mem_LTileE hp
    omega
  rw [hfun]

theorem rowO_div (tx m : Nat) : (LRow 32 tx (2 * m + 1)).map (fun p => p.1 / 32)
    = (List.range tx).reverse.flatMap (fun k => List.replicate 1024 k) := by
  have ho : ¬(2 * m + 1) % 2 = 0 := by omega
  simp only [LRow]
  rw [if_neg ho, List.map_flatMap]
  have hfun : (fun a => (LTileO (a * 32) ((2 * m + 1) * 32)).map (fun p => p.1 / 32))
      = fun k => List.replicate 1024 k := by
    funext a
    apply map_eq_replicate _ _ _ _ (len_LTileO _ _)
    intro p hp
    have hb := mem_LTileO hp
    omega
  rw [hfun]

theorem smRowE_div (tx m : Nat) : (SLRow 32 tx (2 * m)).map (fun p => p.1 / 8)
    = (List.range tx).flatMap (fun k => List.replicate 64 k) := by
  have he : 2 * m % 2 = 0 := by omega
  simp only [SLRow]
  rw [if_pos he, List.map_flatMap]
  have hfun : (fun a => (SLTileE (a * 32 / 4) (2 * m * 32 / 4)).map (fun p => p.1 / 8))
      = fun k => List.replicate 64 k := by
    funext a
    apply map_eq_replicate _ _ _ _ (len_SLTileE _ _)
    intro p hp
    have hb := mem_SLTileE hp
    omega
  rw [hfun]

theorem smRowO_div (tx m : Nat) : (SLRow 32 tx (2 * m + 1)).map (fun p => p.1 / 8)
    = (List.range tx).reverse.flatMap (fun k => List.replicate 64 k) := by
  have ho : ¬(2 * m + 1) % 2 = 0 := by omega
  simp only [SLRow]
  rw [if_neg ho, List.map_flatMap]
  have hfun : (fun a => (SLTileO (a * 32 / 4) ((2 * m + 1) * 32 / 4)).map
      (fun p => p.1 / 8)) = fun k => List.replicate 64 k := by
    funext a
    apply map_eq_replicate _ _ _ _ (len_SLTileO _ _)
    intro p hp
    have hb := mem_SLTileO hp
    omega
  rw [hfun]

/-- C2: serpentine order of both tile de-swizzle variants.  In `to_image`
(even tile row, i.e. row index `2m`): a tile's four 16×16 quadrants are
visited in rank order top-left, bottom-left, bottom-right, top-right
(`quadRankEven`), and the tiles of the row are visited with ascending x-tile
index; in an odd row (`2m + 1`) the quadrants are visited in rank order
bottom-right, top-right, top-left, bottom-left (`quadRankOdd`) and the tiles
with descending x-tile index.  The same holds for
`decode_tiled_small_image`'s 4×4-destination quadrants (side 4, tile side 8,
with `tilesize = 32`). -/
theorem c2_serpentine_quadrant_and_row_order (s : DSt) (x y tx m : Nat) :
    ((((ToImage.copy_tile_even x y s).ws.drop s.ws.length).map Prod.fst).map
        (quadRankEven x y 16)
      = List.replicate 256 0 ++ List.replicate 256 1
        ++ List.replicate 256 2 ++ List.replicate 256 3)
    ∧ ((((ToImage.copy_tile_odd x y s).ws.drop s.ws.length).map Prod.fst).map
        (quadRankOdd x y 16)
      = List.replicate 256 0 ++ List.replicate 256 1
        ++ List.replicate 256 2 ++ List.replicate 256 3)
    ∧ ((((ToImage.row 32 tx (2 * m) s).ws.drop s.ws.length).map Prod.fst).map
        (fun p => p.1 / 32)
      = (List.range tx).flatMap (fun k => List.replicate 1024 k))
    ∧ ((((ToImage.row 32 tx (2 * m + 1) s).ws.drop s.ws.length).map Prod.fst).map
        (fun p => p.1 / 32)
      = (List.range tx).reverse.flatMap (fun k => List.replicate 1024 k))
    ∧ ((((TiledSmall.copy_tile_even x y s).ws.drop s.ws.length).map Prod.fst).map
        (quadRankEven x y 4)
      = List.replicate 16 0 ++ List.replicate 16 1
        ++ List.replicate 16 2 ++ List.replicate 16 3)
    ∧ ((((TiledSmall.copy_tile_odd x y s).ws.drop s.ws.length).map Prod.fst).map
        (quadRankOdd x y 4)
      = List.replicate 16 0 ++ List.replicate 16 1
        ++ List.replicate 16 2 ++ List.replicate 16 3)
    ∧ ((((TiledSmall.row 32 tx (2 * m) s).ws.drop s.ws.length).map Prod.fst).map
        (fun p => p.1 / 8)
      = (List.range tx).flatMap (fun k => List.replicate 64 k))
    ∧ ((((TiledSmall.row 32 tx (2 * m + 1) s).ws.drop s.ws.length).map Prod.fst).map
        (fun p => p.1 / 8)
      = (List.range tx).reverse.flatMap (fun k => List.replicate 64 k)) := by
  refine ⟨?_, ?_, ?_, ?_, ?_, ?_, ?_, ?_⟩
  · rw [drop_map_fst (spec_copy_tile_even x y) s]
    exact tileE_ranks x y
  · rw [drop_map_fst (spec_copy_tile_odd x y) s]
    exact tileO_ranks x y
  · rw [drop_map_fst (spec_row 32 tx (2 * m)) s]
    exact rowE_div tx m
  · rw [drop_map_fst (spec_row 32 tx (2 * m + 1)) s]
    exact rowO_div tx m
  · rw [drop_map_fst (spec_sm_tile_even x y) s]
    exact smTileE_ranks x y
  · rw [drop_map_fst (spec_sm_tile_odd x y) s]
    exact smTileO_ranks x y
  · rw [drop_map_fst (spec_sm_row 32 tx (2 * m)) s]
    exact smRowE_div tx m
  · rw [drop_map_fst (spec_sm_row 32 tx (2 * m + 1)) s]
    exact smRowO_div tx m

/-! Bit-level facts about the two `PixelAverage` masks. -/

theorem shiftRight_land (x y n : Nat) : (x &&& y) >>> n = (x >>> n) &&& (y >>> n) := by
  apply Nat.eq_of_testBit_eq
  intro i
  simp [Nat.testBit_shiftRight, Nat.testBit_and]

theorem land_255 (w : Nat) : w &&& 255 = w % 256 := by
  have h : (255 : Nat) = 2 ^ 8 - 1 := by norm_num
  have h2 : (256 : Nat) = 2 ^ 8 := by norm_num
  rw [h, h2, Nat.and_pow_two_sub_one_eq_mod]

theorem land_ff00ff (w : Nat) :
    w &&& 0xFF00FF = (w >>> 16 % 256) * 65536 + w % 256 := by
  have h16 : (w &&& 0xFF00FF) >>> 16 = w >>> 16 % 256 := by
    rw [shiftRight_land]
    have hc : (0xFF00FF : Nat) >>> 16 = 255 := by decide
    rw [hc, land_255]
  have hmod : (w &&& 0xFF00FF) % 65536 = w % 256 := by
    have h2 : (65536 : Nat) = 2 ^ 16 := by norm_num
    rw [h2, ← Nat.and_pow_two_sub_one_eq_mod (w &&& 0xFF00FF) 16, Nat.and_assoc]
    have hc : (0xFF00FF : Nat) &&& (2 ^ 16 - 1) = 255 := by decide
    rw [hc, land_255]
  have hd : (w &&& 0xFF00FF) / 65536 = w >>> 16 % 256 := by
    have h2 : (65536 : Nat) = 2 ^ 16 := by norm_num
    rw [h2, ← Nat.shiftRight_eq_div_pow, h16]
  omega

theorem land_ff00 (w : Nat) : w &&& 0xFF00 = (w >>> 8 % 256) * 256 := by
  have h8 : (w &&& 0xFF00) >>> 8 = w >>> 8 % 256 := by
    rw [shiftRight_land]
    have hc : (0xFF00 : Nat) >>> 8 = 255 := by decide
    rw [hc, land_255]
  have hmod : (w &&& 0xFF00) % 256 = 0 := by
    have h2 : (256 : Nat) = 2 ^ 8 := by norm_num
    rw [h2, ← Nat.and_pow_two_sub_one_eq_mod (w &&& 0xFF00) 8, Nat.and_assoc]
    have hc : (0xFF00 : Nat) &&& (2 ^ 8 - 1) = 0 := by decide
    rw [hc, Nat.and_zero]
  have hd : (w &&& 0xFF00) / 256 = w >>> 8 % 256 := by
    have h2 : (256 : Nat) = 2 ^ 8 := by norm_num
    rw [h2, ← Nat.shiftRight_eq_div_pow, h8]
    norm_num
  omega

/-! Sum helpers. -/

theorem sum_map_add (f g : Nat → Nat) (l : List Nat) :
    (l.map fun n => f n + g n).sum = (l.map f).sum + (l.map g).sum := by
  induction l with
  | nil => rfl
  | cons a t ih => simp only [List.map_cons, List.sum_cons, ih]; ring

theorem sum_map_mul_right (f : Nat → Nat) (c : Nat) (l : List Nat) :
    (l.map fun n => f n * c).sum = (l.map f).sum * c := by
  induction l with
  | nil => simp
  | cons a t ih => simp only [List.map_cons, List.sum_cons, ih]; ring

theorem sum_bytes_le (f : Nat → Nat) (l : List Nat) (h : ∀ n, f n ≤ 255) :
    (l.map f).sum ≤ l.length * 255 := by
  have := List.sum_le_card_nsmul (l.map f) 255 (by
    intro x hx
    obtain ⟨n, _, rfl⟩ := List.mem_map.mp hx
    exact h n)
  simpa [smul_eq_mul] using this

/-! The 16-sample accumulator: running the source fold of `avg_16` from a
fresh `PixelAverage` produces the exact masked sums (the `u32` additions
never wrap). -/

theorem avg_fold (mapping : Nat → Nat) (i : Nat) : ∀ n, n ≤ 16 →
    (List.range n).foldl (fun a k => PixelAverage.add a (mapping (i + k)))
        PixelAverage.new
      = ⟨((List.range n).map fun k => mapping (i + k) &&& 0xFF00FF).sum,
         ((List.range n).map fun k => mapping (i + k) &&& 0xFF00).sum⟩ := by
  intro n
  induction n with
  | zero => intro _; rfl
  | succ k ih =>
    intro hk
    rw [List.range_succ, List.foldl_append, List.map_append, List.map_append,
      ih (by omega)]
    show PixelAverage.add _ (mapping (i + k)) = _
    simp only [PixelAverage.add, List.map_cons, List.map_nil, List.sum_append,
      List.sum_cons, List.sum_nil, PixelAverage.mk.injEq]
    have hb1 : ((List.range k).map fun j => mapping (i + j) &&& 0xFF00FF).sum
        ≤ k * 16711935 := by
      have := List.sum_le_card_nsmul
        ((List.range k).map fun j => mapping (i + j) &&& 0xFF00FF) 16711935 (by
          intro x hx
          obtain ⟨n, _, rfl⟩ := List.mem_map.mp hx
          exact Nat.and_le_right)
      simpa [smul_eq_mul] using this
    have hb2 : ((List.range k).map fun j => mapping (i + j) &&& 0xFF00).sum
        ≤ k * 65280 := by
      have := List.sum_le_card_nsmul
        ((List.range k).map fun j => mapping (i + j) &&& 0xFF00) 65280 (by
          intro x hx
          obtain ⟨n, _, rfl⟩ := List.mem_map.mp hx
          exact Nat.and_le_right)
      simpa [smul_eq_mul] using this
    have hm1 : mapping (i + k) &&& 0xFF00FF ≤ 16711935 := Nat.and_le_right
    have hm2 : mapping (i + k) &&& 0xFF00 ≤ 65280 := Nat.and_le_right
    constructor <;> rw [Nat.mod_eq_of_lt (by omega)] <;> omega

/-- The accumulator value of `avg_16` is the per-channel box filter: each of
R, G, B of `avgRgb mapping i` is the truncating mean of the corresponding
bytes of the 16 consecutive samples `mapping[i..i+16)`. -/
theorem avgRgb_boxfilter (mapping : Nat → Nat) (i : Nat) :
    avgRgb mapping i
      = (((List.range 16).map fun n => mapping (i + n) >>> 16 % 256).sum / 16,
         ((List.range 16).map fun n => mapping (i + n) >>> 8 % 256).sum / 16,
         ((List.range 16).map fun n => mapping (i + n) % 256).sum / 16) := by
  show ((List.range 16).foldl (fun a k => PixelAverage.add a (mapping (i + k)))
      PixelAverage.new).rgb = _
  rw [avg_fold mapping i 16 (by omega)]
  have e1 : ((List.range 16).map fun k => mapping (i + k) &&& 0xFF00FF).sum
      = ((List.range 16).map fun n => mapping (i + n) >>> 16 % 256).sum * 65536
        + ((List.range 16).map fun n => mapping (i + n) % 256).sum := by
    have hp : (fun k => mapping (i + k) &&& 0xFF00FF)
        = fun k => (mapping (i + k) >>> 16 % 256) * 65536 + mapping (i + k) % 256 := by
      funext k
      exact land_ff00ff (mapping (i + k))
    rw [hp, sum_map_add (fun k => (mapping (i + k) >>> 16 % 256) * 65536)
        (fun k => mapping (i + k) % 256), sum_map_mul_right]
  have e2 : ((List.range 16).map fun k => mapping (i + k) &&& 0xFF00).sum
      = ((List.range 16).map fun n => mapping (i + n) >>> 8 % 256).sum * 256 := by
    have hp : (fun k => mapping (i + k) &&& 0xFF00)
        = fun k => (mapping (i + k) >>> 8 % 256) * 256 := by
      funext k
      exact land_ff00 (mapping (i + k))
    rw [hp, sum_map_mul_right]
  rw [e1, e2]
  have hH : ((List.range 16).map fun n => mapping (i + n) >>> 16 % 256).sum ≤ 4080 := by
    have := sum_bytes_le (fun n => mapping (i + n) >>> 16 % 256) (List.range 16)
      (fun n => show mapping (i + n) >>> 16 % 256 ≤ 255 by omega)
    simpa using this
  have hL : ((List.range 16).map fun n => mapping (i + n) % 256).sum ≤ 4080 := by
    have := sum_bytes_le (fun n => mapping (i + n) % 256) (List.range 16)
      (fun n => show mapping (i + n) % 256 ≤ 255 by omega)
    simpa using this
  have hG : ((List.range 16).map fun n => mapping (i + n) >>> 8 % 256).sum ≤ 4080 := by
    have := sum_bytes_le (fun n => mapping (i + n) >>> 8 % 256) (List.range 16)
      (fun n => show mapping (i + n) >>> 8 % 256 ≤ 255 by omega)
    simpa using this
  set SA := ((List.range 16).map fun n => mapping (i + n) >>> 16 % 256).sum with hSA
  set SG := ((List.range 16).map fun n => mapping (i + n) >>> 8 % 256).sum with hSG
  set SB := ((List.range 16).map fun n => mapping (i + n) % 256).sum with hSB
  have k1 : (SA * 65536 + SB) / 16 = SA * 4096 + SB / 16 := by omega
  have k2 : (SA * 4096 + SB / 16) / 65536 = SA / 16 := by omega
  have k3 : (SA * 4096 + SB / 16) % 256 = SB / 16 := by omega
  have k4 : SG * 256 / 16 = SG * 16 := by omega
  have k5 : SG * 16 / 256 = SG / 16 := by omega
  simp only [PixelAverage.rgb, Nat.shiftRight_eq_div_pow, Prod.mk.injEq]
  norm_num [k1, k2, k3, k4, k5]
  omega

theorem fold_const_add (w : Nat) : ∀ n, n ≤ 16 →
    (List.range n).foldl (fun a _ => PixelAverage.add a w) PixelAverage.new
      = ⟨n * (w &&& 0xFF00FF), n * (w &&& 0xFF00)⟩ := by
  intro n
  induction n with
  | zero => intro _; simp [PixelAverage.new]
  | succ k ih =>
    intro hk
    rw [List.range_succ, List.foldl_append, ih (by omega)]
    show PixelAverage.add _ w = _
    simp only [PixelAverage.add, PixelAverage.mk.injEq]
    have hm1 : w &&& 0xFF00FF ≤ 16711935 := Nat.and_le_right
    have hm2 : w &&& 0xFF00 ≤ 65280 := Nat.and_le_right
    have hb1 : k * (w &&& 0xFF00FF) ≤ 15 * 16711935 :=
      Nat.mul_le_mul (by omega) hm1
    have hb2 : k * (w &&& 0xFF00) ≤ 15 * 65280 :=
      Nat.mul_le_mul (by omega) hm2
    constructor <;> rw [Nat.mod_eq_of_lt (by omega)] <;> ring

/-- C6: adding the same packed 32-bit word `w` exactly 16 times to a fresh
`PixelAverage` and reading `rgb()` reproduces exactly the triple
(byte 2 of `w`, byte 1, byte 0) — no drift from the masked-sum packing and
the division by 16. -/
theorem c6_pixel_average_exact (w : Nat) (hw : w < 2 ^ 32) :
    ((List.range 16).foldl (fun a _ => PixelAverage.add a w) PixelAverage.new).rgb
      = (w >>> 16 % 256, w >>> 8 % 256, w % 256) := by
  rw [fold_const_add w 16 (by omega), land_ff00ff w, land_ff00 w]
  simp only [PixelAverage.rgb, Nat.shiftRight_eq_div_pow]
  norm_num
  omega

/-- C6 witness: the concrete word `0x123456` is reproduced exactly. -/
theorem c6_pixel_average_exact_witness :
    ((List.range 16).foldl (fun a _ => PixelAverage.add a 0x123456)
        PixelAverage.new).rgb
      = (0x123456 >>> 16 % 256, 0x123456 >>> 8 % 256, 0x123456 % 256) :=
  c6_pixel_average_exact 0x123456 (by norm_num)

/-- C3: in `decode_tiled_small_image`, each `copy_16x16_px` unit (one
destination 4×4 block, i.e. one 16×16-source-pixel tile) performs exactly 16
writes — one destination pixel per group — whose cursors are the 16
consecutive groups `s.i, s.i + 16, ..., s.i + 240` of 16 consecutive source
samples (the cursor advances by exactly 16 per destination pixel, 256 per
unit), the written destination coordinates are the 4×4 block at `(x, y)`,
and the value written for a group starting at cursor `c` is the
`PixelAverage` box filter: the per-channel truncating mean of the 16
consecutive samples `mapping[c..c+16)`. -/
theorem c3_tiled_small_groups_boxfilter (mapping : Nat → Nat) (s : DSt) (x y : Nat) :
    ((TiledSmall.copy_16x16_px x y s).ws.length = s.ws.length + 16)
    ∧ ((TiledSmall.copy_16x16_px x y s).i = s.i + 256)
    ∧ (((TiledSmall.copy_16x16_px x y s).ws.drop s.ws.length).map Prod.snd
        = (List.range 16).map (fun k => s.i + 16 * k))
    ∧ (((TiledSmall.copy_16x16_px x y s).ws.drop s.ws.length).map Prod.fst = L4x4 x y)
    ∧ (∀ c : Nat, avgRgb mapping c
        = (((List.range 16).map fun n => mapping (c + n) >>> 16 % 256).sum / 16,
           ((List.range 16).map fun n => mapping (c + n) >>> 8 % 256).sum / 16,
           ((List.range 16).map fun n => mapping (c + n) % 256).sum / 16)) := by
  refine ⟨?_, ?_, ?_, drop_map_fst (spec_sm_16x16 x y) s,
    fun c => avgRgb_boxfilter mapping c⟩
  · rw [spec_sm_16x16 x y s]
    show (s.ws ++ tagCurs 16 s.i (L4x4 x y)).length = s.ws.length + 16
    rw [List.length_append, tagCurs_length, len_L4x4]
  · rw [spec_sm_16x16 x y s]
    show s.i + 16 * (L4x4 x y).length = s.i + 256
    rw [len_L4x4]
  · rw [spec_sm_16x16 x y s]
    show ((s.ws ++ tagCurs 16 s.i (L4x4 x y)).drop s.ws.length).map Prod.snd = _
    rw [List.drop_left, tagCurs_map_snd, len_L4x4]

/-! C4: the YUV → RGB conversion. -/

theorem wrap32_eq (v : Int) (h1 : -2147483648 ≤ v) (h2 : v < 2147483648) :
    wrap32 v = v := by
  unfold wrap32
  omega

theorem clampByte_le (v : Int) : clampByte v ≤ 255 := by
  unfold clampByte
  split
  · omega
  · split
    · omega
    · omega

theorem yuv_channels_le (yv uv vv : Nat) :
    (yuv_rgb yv uv vv).1 ≤ 255 ∧ (yuv_rgb yv uv vv).2.1 ≤ 255
      ∧ (yuv_rgb yv uv vv).2.2 ≤ 255 := by
  simp only [yuv_rgb]
  exact ⟨clampByte_le _, clampByte_le _, clampByte_le _⟩

/-- C4: for every luma and chroma byte, `YUV420Pixel::rgb` computes precisely
the spec formula `C=Y-16, D=U-128, E=V-128`, `R=(298C+409E+128)>>8`,
`G=(298C-100D-208E+128)>>8`, `B=(298C+516D+128)>>8` with each channel
clamped to `[0,255]` — the `i32` arithmetic never wraps — and in particular
`(16,128,128) ↦ (0,0,0)`, `(235,128,128) ↦ (255,255,255)` (exactly, hence
within ±1), and even the out-of-range synthetic input `(255,0,255)` yields
all three channels in `[0,255]`. -/
theorem c4_yuv_rgb_formula_clamp (Y U V : Nat)
    (hY : Y < 256) (hU : U < 256) (hV : V < 256) :
    yuv_rgb Y U V = yuvSpec Y U V
    ∧ (yuv_rgb Y U V).1 ≤ 255 ∧ (yuv_rgb Y U V).2.1 ≤ 255
    ∧ (yuv_rgb Y U V).2.2 ≤ 255
    ∧ yuv_rgb 16 128 128 = (0, 0, 0)
    ∧ yuv_rgb 235 128 128 = (255, 255, 255)
    ∧ ((yuv_rgb 255 0 255).1 ≤ 255 ∧ (yuv_rgb 255 0 255).2.1 ≤ 255
        ∧ (yuv_rgb 255 0 255).2.2 ≤ 255) := by
  have hch := yuv_channels_le Y U V
  have hy : Y % 256 = Y := Nat.mod_eq_of_lt hY
  have hu : U % 256 = U := Nat.mod_eq_of_lt hU
  have hv : V % 256 = V := Nat.mod_eq_of_lt hV
  refine ⟨?_, hch.1, hch.2.1, hch.2.2, by decide, by decide, yuv_channels_le 255 0 255⟩
  simp only [yuv_rgb, yuvSpec, hy, hu, hv]
  have e1 : wrap32 ((Y : Int) - 16) = (Y : Int) - 16 :=
    wrap32_eq _ (by omega) (by omega)
  have e2 : wrap32 ((U : Int) - 128) = (U : Int) - 128 :=
    wrap32_eq _ (by omega) (by omega)
  have e3 : wrap32 ((V : Int) - 128) = (V : Int) - 128 :=
    wrap32_eq _ (by omega) (by omega)
  rw [e1, e2, e3]
  have e4 : wrap32 (298 * ((Y : Int) - 16)) = 298 * ((Y : Int) - 16) :=
    wrap32_eq _ (by omega) (by omega)
  have e5 : wrap32 (409 * ((V : Int) - 128)) = 409 * ((V : Int) - 128) :=
    wrap32_eq _ (by omega) (by omega)
  have e8 : wrap32 (100 * ((U : Int) - 128)) = 100 * ((U : Int) - 128) :=
    wrap32_eq _ (by omega) (by omega)
  have e9 : wrap32 (208 * ((V : Int) - 128)) = 208 * ((V : Int) - 128) :=
    wrap32_eq _ (by omega) (by omega)
  have e13 : wrap32 (516 * ((U : Int) - 128)) = 516 * ((U : Int) - 128) :=
    wrap32_eq _ (by omega) (by omega)
  rw [e4, e5, e8, e9, e13]
  have e6 : wrap32 (298 * ((Y : Int) - 16) + 409 * ((V : Int) - 128))
      = 298 * ((Y : Int) - 16) + 409 * ((V : Int) - 128) :=
    wrap32_eq _ (by omega) (by omega)
  have e10 : wrap32 (298 * ((Y : Int) - 16) - 100 * ((U : Int) - 128))
      = 298 * ((Y : Int) - 16) - 100 * ((U : Int) - 128) :=
    wrap32_eq _ (by omega) (by omega)
  have e14 : wrap32 (298 * ((Y : Int) - 16) + 516 * ((U : Int) - 128))
      = 298 * ((Y : Int) - 16) + 516 * ((U : Int) - 128) :=
    wrap32_eq _ (by omega) (by omega)
  rw [e6, e10, e14]
  have e11 : wrap32 (298 * ((Y : Int) - 16) - 100 * ((U : Int) - 128)
        - 208 * ((V : Int) - 128))
      = 298 * ((Y : Int) - 16) - 100 * ((U : Int) - 128) - 208 * ((V : Int) - 128) :=
    wrap32_eq _ (by omega) (by omega)
  rw [e11]
  have e7 : wrap32 (298 * ((Y : Int) - 16) + 409 * ((V : Int) - 128) + 128)
      = 298 * ((Y : Int) - 16) + 409 * ((V : Int) - 128) + 128 :=
    wrap32_eq _ (by omega) (by omega)
  have e12 : wrap32 (298 * ((Y : Int) - 16) - 100 * ((U : Int) - 128)
        - 208 * ((V : Int) - 128) + 128)
      = 298 * ((Y : Int) - 16) - 100 * ((U : Int) - 128) - 208 * ((V : Int) - 128)
        + 128 :=
    wrap32_eq _ (by omega) (by omega)
  have e15 : wrap32 (298 * ((Y : Int) - 16) + 516 * ((U : Int) - 128) + 128)
      = 298 * ((Y : Int) - 16) + 516 * ((U : Int) - 128) + 128 :=
    wrap32_eq _ (by omega) (by omega)
  rw [e7, e12, e15]

/-- C4 witness: the refinement at the concrete input `(100, 50, 200)`. -/
theorem c4_yuv_rgb_formula_clamp_witness :
    yuv_rgb 100 50 200 = yuvSpec 100 50 200 :=
  (c4_yuv_rgb_formula_clamp 100 50 200 (by norm_num) (by norm_num) (by norm_num)).1

/-! C5: the RGB565 expansion. -/

theorem rgb565_byte_le (dat i c : Nat) : rgb565_byte dat i c ≤ 2 ^ c - 1 := by
  unfold rgb565_byte
  have h : (1 : Nat) <<< c = 2 ^ c := by rw [Nat.shiftLeft_eq]; ring
  rw [h]
  exact le_trans (Nat.mod_le _ _) Nat.and_le_left

theorem r8_eq (dat : Nat) : (rgb565_rgb dat).1 = (rgb565_byte dat 11 5 * 527 + 23) / 64 := by
  have hb : rgb565_byte dat 11 5 ≤ 31 := by
    have := rgb565_byte_le dat 11 5
    omega
  show ((((rgb565_byte dat 11 5 * 527) % 65536 + 23) % 65536) >>> 6) % 256 = _
  rw [Nat.mod_eq_of_lt (show rgb565_byte dat 11 5 * 527 < 65536 by omega),
    Nat.mod_eq_of_lt (show rgb565_byte dat 11 5 * 527 + 23 < 65536 by omega),
    Nat.shiftRight_eq_div_pow,
    Nat.mod_eq_of_lt (show (rgb565_byte dat 11 5 * 527 + 23) / 2 ^ 6 < 256 by omega)]
  norm_num

theorem g8_eq (dat : Nat) :
    (rgb565_rgb dat).2.1 = (rgb565_byte dat 5 6 * 259 + 33) / 64 := by
  have hb : rgb565_byte dat 5 6 ≤ 63 := by
    have := rgb565_byte_le dat 5 6
    omega
  show ((((rgb565_byte dat 5 6 * 259) % 65536 + 33) % 65536) >>> 6) % 256 = _
  rw [Nat.mod_eq_of_lt (show rgb565_byte dat 5 6 * 259 < 65536 by omega),
    Nat.mod_eq_of_lt (show rgb565_byte dat 5 6 * 259 + 33 < 65536 by omega),
    Nat.shiftRight_eq_div_pow,
    Nat.mod_eq_of_lt (show (rgb565_byte dat 5 6 * 259 + 33) / 2 ^ 6 < 256 by omega)]
  norm_num

theorem b8_eq (dat : Nat) :
    (rgb565_rgb dat).2.2 = (rgb565_byte dat 0 5 * 527 + 23) / 64 := by
  have hb : rgb565_byte dat 0 5 ≤ 31 := by
    have := rgb565_byte_le dat 0 5
    omega
  show ((((rgb565_byte dat 0 5 * 527) % 65536 + 23) % 65536) >>> 6) % 256 = _
  rw [Nat.mod_eq_of_lt (show rgb565_byte dat 0 5 * 527 < 65536 by omega),
    Nat.mod_eq_of_lt (show rgb565_byte dat 0 5 * 527 + 23 < 65536 by omega),
    Nat.shiftRight_eq_div_pow,
    Nat.mod_eq_of_lt (show (rgb565_byte dat 0 5 * 527 + 23) / 2 ^ 6 < 256 by omega)]
  norm_num

/-- C5: the 8-bit expansion of `Rgb565::rgb` is monotone in each channel
with respect to that channel's extracted field value (red and blue via
`(v*527+23)>>6` on the 5-bit fields, green via `(v*259+33)>>6` on the 6-bit
field), and it maps `0x0000` to `(0,0,0)` and `0xFFFF` to `(255,255,255)`
exactly. -/
theorem c5_rgb565_monotone_endpoints (d1 d2 : Nat) :
    (rgb565_byte d1 11 5 ≤ rgb565_byte d2 11 5
        → (rgb565_rgb d1).1 ≤ (rgb565_rgb d2).1)
    ∧ (rgb565_byte d1 5 6 ≤ rgb565_byte d2 5 6
        → (rgb565_rgb d1).2.1 ≤ (rgb565_rgb d2).2.1)
    ∧ (rgb565_byte d1 0 5 ≤ rgb565_byte d2 0 5
        → (rgb565_rgb d1).2.2 ≤ (rgb565_rgb d2).2.2)
    ∧ rgb565_rgb 0x0000 = (0, 0, 0)
    ∧ rgb565_rgb 0xFFFF = (255, 255, 255) := by
  refine ⟨?_, ?_, ?_, by decide, by decide⟩
  · intro h
    rw [r8_eq, r8_eq]
    exact Nat.div_le_div_right (by omega)
  · intro h
    rw [g8_eq, g8_eq]
    exact Nat.div_le_div_right (by omega)
  · intro h
    rw [b8_eq, b8_eq]
    exact Nat.div_le_div_right (by omega)

/-- C5 witness: monotonicity instantiated at the two endpoint words. -/
theorem c5_rgb565_monotone_endpoints_witness :
    (rgb565_rgb 0x0000).1 ≤ (rgb565_rgb 0xFFFF).1 :=
  (c5_rgb565_monotone_endpoints 0x0000 0xFFFF).1 (by decide)

/-- C7: for `decode_image` with `pitch = width*4`, the sample read for
destination `(x, y)` (in bounds) is `buffer[y*width + x]`, and its bytes
2, 1, 0 become R, G, B at `(x, y)`.  (The hypothesis `y*width + x < 2^32`
reflects the `u32` offset arithmetic of the source; it is implied by the
caller invariant that the buffer of `u32` words is addressable.) -/
theorem c7_decode_image_offset_law (mapping : Nat → Nat) (w h x y : Nat)
    (hx : x < w) (hy : y < h) (hov : y * w + x < 2 ^ 32) :
    (decode_image mapping (w * 4) (w, h)).w = w
    ∧ (decode_image mapping (w * 4) (w, h)).h = h
    ∧ (decode_image mapping (w * 4) (w, h)).px x y
        = (byte_of_word (mapping (y * w + x) % 2 ^ 32) 2,
           byte_of_word (mapping (y * w + x) % 2 ^ 32) 1,
           byte_of_word (mapping (y * w + x) % 2 ^ 32) 0) := by
  refine ⟨rfl, rfl, ?_⟩
  simp only [decode_image]
  rw [if_pos (show x < w ∧ y < h from ⟨hx, hy⟩)]
  have hp : w * 4 / 4 = w := by omega
  rw [hp]
  have h1 : y * w % 2 ^ 32 = y * w := Nat.mod_eq_of_lt (by omega)
  rw [h1]
  have h2 : (y * w + x) % 2 ^ 32 = y * w + x := Nat.mod_eq_of_lt hov
  rw [h2]

/-- C7 witness: contiguous 4×3 raster, destination `(2, 1)` reads word 6. -/
theorem c7_decode_image_offset_law_witness :
    (decode_image (fun i => i) 16 (4, 3)).px 2 1
      = (byte_of_word (6 % 2 ^ 32) 2, byte_of_word (6 % 2 ^ 32) 1,
         byte_of_word (6 % 2 ^ 32) 0) :=
  (c7_decode_image_offset_law (fun i => i) 4 3 2 1 (by norm_num) (by norm_num)
    (by norm_num)).2.2

/-- C8: `decode_small_image_multichannel` returns an image of half the
nominal width and height; for each output `(x, y)` the luma fed into the
conversion is the truncating mean of the 4 luma samples of the 2×2 source
block at offsets `2y*pitch0 + 2x`, `+1`, `+pitch0`, `+pitch0+1`, and the
chroma samples are read directly at `y*pitch + x` of their planes.  (The
`< 2^32` hypotheses reflect the `u32` offset arithmetic.) -/
theorem c8_decode_small_multichannel (m0 m1 m2 : Nat → Nat) (w h x y p0 p1 p2 : Nat)
    (hx : x < w / 2) (hy : y < h / 2)
    (h0 : 2 * y * p0 + 2 * x < 2 ^ 32)
    (h1 : y * p1 + x < 2 ^ 32) (h2 : y * p2 + x < 2 ^ 32) :
    (decode_small_image_multichannel m0 m1 m2 (w, h) p0 p1 p2).w = w / 2
    ∧ (decode_small_image_multichannel m0 m1 m2 (w, h) p0 p1 p2).h = h / 2
    ∧ (decode_small_image_multichannel m0 m1 m2 (w, h) p0 p1 p2).px x y
        = yuv_rgb ((m0 (2 * y * p0 + 2 * x) % 256
              + m0 (2 * y * p0 + 2 * x + 1) % 256
              + m0 (2 * y * p0 + 2 * x + p0) % 256
              + m0 (2 * y * p0 + 2 * x + p0 + 1) % 256) / 4)
            (m1 (y * p1 + x) % 256) (m2 (y * p2 + x) % 256) := by
  refine ⟨rfl, rfl, ?_⟩
  simp only [decode_small_image_multichannel]
  rw [if_pos (show x < w / 2 ∧ y < h / 2 from ⟨hx, hy⟩)]
  have hoff : ((2 * y) % 2 ^ 32 * p0 % 2 ^ 32 + (2 * x) % 2 ^ 32) % 2 ^ 32
      = 2 * y * p0 + 2 * x := by
    rcases Nat.eq_zero_or_pos p0 with hp | hp
    · subst hp
      simp only [Nat.mul_zero]
      omega
    · have hy2 : 2 * y ≤ 2 * y * p0 := Nat.le_mul_of_pos_right _ hp
      have hm1 : 2 * y % 2 ^ 32 = 2 * y := Nat.mod_eq_of_lt (by omega)
      rw [hm1]
      have hm2 : 2 * y * p0 % 2 ^ 32 = 2 * y * p0 := Nat.mod_eq_of_lt (by omega)
      rw [hm2]
      omega
  have hoff1 : (y * p1 % 2 ^ 32 + x) % 2 ^ 32 = y * p1 + x := by omega
  have hoff2 : (y * p2 % 2 ^ 32 + x) % 2 ^ 32 = y * p2 + x := by omega
  rw [hoff, hoff1, hoff2]

/-- C8 witness: identity planes, `pitches = (4, 2, 2)`, output `(1, 1)`. -/
theorem c8_decode_small_multichannel_witness :
    (decode_small_image_multichannel (fun i => i) (fun i => i) (fun i => i)
        (4, 4) 4 2 2).px 1 1
      = yuv_rgb ((10 % 256 + 11 % 256 + 14 % 256 + 15 % 256) / 4)
          (3 % 256) (3 % 256) :=
  (c8_decode_small_multichannel (fun i => i) (fun i => i) (fun i => i) 4 4 1 1 4 2 2
    (by norm_num) (by norm_num) (by norm_num) (by norm_num) (by norm_num)).2.2

/-- C10: `decode_tiled_small_image` returns an image of dimensions
`(size.0 / 4, size.1 / 4)` — a quarter of the `size` argument in each
dimension, not `size` itself — cropped from the full averaged canvas of
dimensions `(tiles.0 * tilesize / 4, tiles.1 * tilesize / 4)`; e.g. with
`tiles = (2,2), tilesize = 32, size = (64,64)` the result is 16×16. -/
theorem c10_tiled_small_dims (mapping : Nat → Nat) (tilesize : Nat)
    (tiles size : Nat × Nat) :
    (decode_tiled_small_image mapping tilesize tiles size).w = size.1 / 4
    ∧ (decode_tiled_small_image mapping tilesize tiles size).h = size.2 / 4
    ∧ (decode_tiled_canvas mapping tilesize tiles).w = tiles.1 * tilesize / 4
    ∧ (decode_tiled_canvas mapping tilesize tiles).h = tiles.2 * tilesize / 4
    ∧ (decode_tiled_small_image mapping 32 (2, 2) (64, 64)).w = 16
    ∧ (decode_tiled_small_image mapping 32 (2, 2) (64, 64)).h = 16 :=
  ⟨rfl, rfl, rfl, rfl, rfl, rfl⟩

set_option maxRecDepth 100000 in
set_option maxHeartbeats 4000000 in
/-- Every destination coordinate of the 20×20 crop region occurs among the
coordinates of the single-tile `to_image` traversal (checked by evaluation). -/
theorem cover20 : ((List.range 20).all fun x => (List.range 20).all fun y =>
    (LAll 32 (1, 1)).contains (x, y)) = true := by decide

/-- A coordinate that occurs in the write log has a last write. -/
theorem lastCur_isSome_of_mem {ws : List ((Nat × Nat) × Nat)} {p : Nat × Nat}
    (h : p ∈ ws.map Prod.fst) : (lastCur ws p).isSome = true := by
  unfold lastCur
  rw [Option.isSome_map']
  rw [List.find?_isSome]
  obtain ⟨e, he, hep⟩ := List.mem_map.mp h
  exact ⟨e, List.mem_reverse.mpr he, by simp [hep]⟩

/-- C9: `to_image` with `tiles = (1,1), tilesize = 32, size = (20,20)` first
builds the full 32×32 canvas, then returns exactly the 20×20 top-left crop:
the result has dimensions 20×20, each of its pixels equals the corresponding
pixel of the full canvas, and every coordinate of the crop region was
actually written by the traversal. -/
theorem c9_to_image_crop (mapping : Nat → Nat) (x y : Nat)
    (hx : x < 20) (hy : y < 20) :
    (to_image mapping 32 (1, 1) (20, 20)).w = 20
    ∧ (to_image mapping 32 (1, 1) (20, 20)).h = 20
    ∧ (to_image_canvas mapping 32 (1, 1)).w = 32
    ∧ (to_image_canvas mapping 32 (1, 1)).h = 32
    ∧ (to_image mapping 32 (1, 1) (20, 20)).px x y
        = (to_image_canvas mapping 32 (1, 1)).px x y
    ∧ (lastCur (ToImage.run 32 (1, 1)).ws (x, y)).isSome = true := by
  refine ⟨rfl, rfl, rfl, rfl, rfl, ?_⟩
  apply lastCur_isSome_of_mem
  have hws : (ToImage.run 32 (1, 1)).ws = tagCurs 4 0 (LAll 32 (1, 1)) := by
    rw [run_eq]
  rw [hws, tagCurs_map_fst]
  have hc := cover20
  rw [List.all_eq_true] at hc
  have h1 := hc x (List.mem_range.mpr hx)
  rw [List.all_eq_true] at h1
  have h2 := h1 y (List.mem_range.mpr hy)
  obtain ⟨b, hb, hbeq⟩ := List.contains_iff_exists_mem_beq.mp h2
  exact (eq_of_beq hbeq) ▸ hb

/-- C9 witness: the crop pixel `(19, 7)` is a written canvas pixel. -/
theorem c9_to_image_crop_witness :
    (lastCur (ToImage.run 32 (1, 1)).ws (19, 7)).isSome = true :=
  (c9_to_image_crop (fun i => i) 19 7 (by norm_num) (by norm_num)).2.2.2.2.2

end ImageDecoder
